import Mathlib

/-!
Verification of the scalar finite-field arithmetic engine of the `galois`
repository: the Zech-logarithm lookup backend (`galois/meta_mixin_target.py`),
the GF(2) calculate backend (`galois/meta_gf2.py`), and the integer root and
logarithm routines (`galois/integer.py`).

Field elements are embedded as natural numbers in `[0, order)`; the int64
integer arguments of `power` and `multiply_by_integer` are embedded as `Int`
(Python `%` on a positive modulus agrees with `Int.emod`).
-/

/-- Error taxonomy of the spec (§7) for the scalar operations whose failure is
signaled outside the JIT kernels. -/
inductive GFError where
  | DivisionByZero
  | LogarithmOfZero
  deriving DecidableEq, Repr

/-- The state a lookup backend runs against: the field's characteristic and
order together with the EXP, LOG and ZECH_LOG tables and the index ZECH_E
(module-level globals `CHARACTERISTIC`, `ORDER`, `EXP`, `LOG`, `ZECH_LOG`,
`ZECH_E` in `meta_mixin_target.py`).  Tables are embedded as total functions
on `Nat`; only the indices the source can produce are constrained by the
validity predicates below. -/
structure LookupCtx where
  characteristic : Nat
  order : Nat
  exp : Nat → Nat
  log : Nat → Nat
  zechLog : Nat → Nat
  zechE : Nat

namespace Lookup

/-- Kernel `_add` from `meta_mixin_target.py`: Zech-logarithm addition.
`a + b = EXP[m + ZECH_LOG[n - m]]` after ordering `m ≤ n`, with explicit
branches for the zero element and for `n - m = ZECH_E`. -/
def _add (c : LookupCtx) (a b : Nat) : Nat :=
  if a = 0 then b
  else if b = 0 then a
  else
    let m := c.log a
    let n := c.log b
    let p := if m > n then (n, m) else (m, n)
    if p.2 - p.1 = c.zechE then 0
    else c.exp (p.1 + c.zechLog (p.2 - p.1))

/-- The ordered pair `(m, n)` used by `_subtract` after the swap that makes the
difference non-negative. -/
def subSwap (m n : Nat) : Nat × Nat :=
  if m > n then (n, m) else (m, n)

/-- The pre-reduction index `z = n - m` of `_subtract`, with `m = LOG[a]` and
`n = LOG[b] + ZECH_E`, after the swap. -/
def subZpre (c : LookupCtx) (a b : Nat) : Nat :=
  let p := subSwap (c.log a) (c.log b + c.zechE)
  p.2 - p.1

/-- The ZECH_LOG index of `_subtract` after the single conditional reduction by
`ORDER - 1`. -/
def subZ (c : LookupCtx) (a b : Nat) : Nat :=
  let z := subZpre c a b
  if z ≥ c.order - 1 then z - (c.order - 1) else z

/-- The smaller exponent `m` kept by `_subtract` after the swap. -/
def subM (c : LookupCtx) (a b : Nat) : Nat :=
  (subSwap (c.log a) (c.log b + c.zechE)).1

/-- Kernel `_subtract` from `meta_mixin_target.py`: `a - b` computed as
`a + (-1)·b` in the log domain, with `n = LOG[b] + ZECH_E`, the sentinel
check `z = ZECH_E` before the reduction `z ≥ ORDER - 1`, and the final
lookup `EXP[m + ZECH_LOG[z]]`. -/
def _subtract (c : LookupCtx) (a b : Nat) : Nat :=
  if b = 0 then a
  else if a = 0 then c.exp (c.log b + c.zechE)
  else if subZpre c a b = c.zechE then 0
  else c.exp (subM c a b + c.zechLog (subZ c a b))

/-- Kernel `_multiply` from `meta_mixin_target.py`: `EXP[LOG[a] + LOG[b]]` with an
explicit zero branch. -/
def _multiply (c : LookupCtx) (a b : Nat) : Nat :=
  if a = 0 ∨ b = 0 then 0
  else c.exp (c.log a + c.log b)

/-- Kernel `_divide` from `meta_mixin_target.py`: `EXP[(ORDER - 1) + LOG[a] - LOG[b]]`;
the kernel returns 0 when `a = 0` or `b = 0` (the `b = 0` case is raised as
`DivisionByZero` outside the kernel). -/
def _divide (c : LookupCtx) (a b : Nat) : Nat :=
  if a = 0 ∨ b = 0 then 0
  else c.exp ((c.order - 1) + c.log a - c.log b)

/-- Kernel `_additive_inverse` from `meta_mixin_target.py`: `EXP[ZECH_E + LOG[a]]`. -/
def _additive_inverse (c : LookupCtx) (a : Nat) : Nat :=
  if a = 0 then 0
  else c.exp (c.zechE + c.log a)

/-- Kernel `_multiplicative_inverse` from `meta_mixin_target.py`:
`EXP[(ORDER - 1) - LOG[a]]`; the kernel returns 0 when `a = 0` (raised as
`DivisionByZero` outside the kernel). -/
def _multiplicative_inverse (c : LookupCtx) (a : Nat) : Nat :=
  if a = 0 then 0
  else c.exp ((c.order - 1) - c.log a)

/-- Kernel `_multiple_add` from `meta_mixin_target.py`: reduce the integer multiple
modulo the characteristic, then multiply in the field. -/
def _multiple_add (c : LookupCtx) (a : Nat) (b_int : Int) : Nat :=
  let b := (b_int % (c.characteristic : Int)).toNat
  if a = 0 ∨ b = 0 then 0
  else c.exp (c.log a + c.log b)

/-- Kernel `_power` from `meta_mixin_target.py`: `EXP[(LOG[a] * b_int) % (ORDER - 1)]`
with branches for exponent 0 and base 0 (base 0 with negative exponent is
raised outside the kernel). -/
def _power (c : LookupCtx) (a : Nat) (b_int : Int) : Nat :=
  if b_int = 0 then 1
  else if a = 0 then 0
  else c.exp ((((c.log a : Int) * b_int) % ((c.order : Int) - 1)).toNat)

/-- Kernel `_log` from `meta_mixin_target.py`: `LOG[a]`, with no zero branch in the
kernel (the `a = 0` case is raised as an `ArithmeticError` outside). -/
def _log (c : LookupCtx) (a : Nat) : Nat :=
  c.log a

end Lookup

namespace GF2

/-- Kernel `_add_jit` from `meta_gf2.py`: addition in GF(2) is bitwise XOR. -/
def _add_jit (a b : Nat) : Nat := a ^^^ b

/-- Kernel `_subtract_jit` from `meta_gf2.py`: subtraction in GF(2) is bitwise XOR. -/
def _subtract_jit (a b : Nat) : Nat := a ^^^ b

/-- Kernel `_multiply_jit` from `meta_gf2.py`: multiplication in GF(2) is bitwise AND. -/
def _multiply_jit (a b : Nat) : Nat := a &&& b

/-- Kernel `_divide_jit` from `meta_gf2.py`: returns `a` for `b ≠ 0`; the kernel
returns 0 when `b = 0` (raised as `DivisionByZero` outside the kernel). -/
def _divide_jit (a b : Nat) : Nat :=
  if b = 0 then 0 else a

/-- Kernel `_negative_jit` from `meta_gf2.py`: negation in GF(2) is the identity. -/
def _negative_jit (a : Nat) : Nat := a

/-- Kernel `_power_jit` from `meta_gf2.py`: exponent 0 gives 1, base 0 gives 0,
otherwise `a` (base 0 with negative exponent is raised outside the kernel). -/
def _power_jit (a : Nat) (power : Int) : Nat :=
  if power = 0 then 1
  else if a = 0 then 0
  else a

/-- Kernel `_log_jit` from `meta_gf2.py`: the discrete log in GF(2) is 0
(the `a = 0` case is raised outside the kernel). -/
def _log_jit (_a : Nat) : Nat := 0

end GF2

/-- The loop of `_power_python` (`meta_mixin_target.py`): square-and-multiply
with the "squaring" part `rs` and the "multiplicative" part `rm`, iterating
while `power > 1`.  The fuel argument bounds the iteration count; `fuel = power`
always suffices since `power` strictly decreases. -/
def smLoop (mul : Nat → Nat → Nat) : Nat → Nat → Nat → Nat → Nat
  | 0, _, rs, rm => mul rm rs
  | fuel + 1, power, rs, rm =>
    if power > 1 then
      if power % 2 = 0 then smLoop mul fuel (power / 2) (mul rs rs) rm
      else smLoop mul fuel (power - 1) rs (mul rm rs)
    else mul rm rs

/-- Method `_power_python` from `meta_mixin_target.py`: the square-and-multiply
algorithm, parameterized (as the source method is through `cls`) by the field's
multiply and multiplicative-inverse routines.  Exponent 0 returns 1; a negative
exponent first inverts the base. -/
def _power_python (mul : Nat → Nat → Nat) (inv : Nat → Nat) (a : Nat)
    (power : Int) : Nat :=
  if power = 0 then 1
  else
    let a' := if power < 0 then inv a else a
    let p := power.natAbs
    smLoop mul p p a' 1

/-- Method `_divide_python` from `meta_mixin_target.py`: multiply `a` by the
multiplicative inverse of `b`; returns 0 when `a = 0` or `b = 0` (the `b = 0`
case is raised as `ZeroDivisionError` outside). -/
def _divide_python (mul : Nat → Nat → Nat) (inv : Nat → Nat) (a b : Nat) : Nat :=
  if a = 0 ∨ b = 0 then 0
  else mul a (inv b)

/-- The loop of `_log_python` (`meta_mixin_target.py`): `for i in
range(0, order - 1)`, breaking when the accumulator equals `beta`; the fuel is
the number of remaining loop indices, and when the range is exhausted the
returned index is the last one executed (`i - 1` for the current `i`), matching
Python's `for` variable after normal loop completion. -/
def logLoop (mul : Nat → Nat → Nat) (alpha beta : Nat) : Nat → Nat → Nat → Nat
  | 0, i, _r => i - 1
  | fuel + 1, i, r =>
    if r = beta then i else logLoop mul alpha beta fuel (i + 1) (mul r alpha)

/-- Method `_log_python` from `meta_mixin_target.py`: naive discrete logarithm by
repeated multiplication by the primitive element. -/
def _log_python (mul : Nat → Nat → Nat) (order primitive_element beta : Nat) : Nat :=
  logLoop mul primitive_element beta (order - 1) 0 1

/-- The scalar core of `_poly_eval` (`meta_mixin_target.py`) and
`_poly_eval_jit` (`meta_gf2.py`), which are textually identical up to the
injected `ADD_JIT`/`MULTIPLY_JIT` pair: `results[i] = coeffs[0]` followed by
`results[i] = ADD_JIT(coeffs[j], MULTIPLY_JIT(results[i], values[i]))` for
`j = 1, …, coeffs.size - 1`. -/
def _poly_eval (add mul : Nat → Nat → Nat) (coeffs : List Nat) (x : Nat) : Nat :=
  match coeffs with
  | [] => 0
  | c0 :: rest => rest.foldl (fun result cj => add cj (mul result x)) c0

/-- Follows the spec's words (§4.5): `result ← coeffs[0]; for each subsequent
coefficient c: result ← add(c, multiply(result, x))`, written as a recursion on
the remaining coefficients carrying the running result. -/
def hornerSpec (add mul : Nat → Nat → Nat) (result : Nat) (rest : List Nat)
    (x : Nat) : Nat :=
  match rest with
  | [] => result
  | cj :: rest' => hornerSpec add mul (add cj (mul result x)) rest' x

/-- The Newton update of `iroot` (`galois/integer.py`):
`u ← ((k-1)·u + n ÷ u^(k-1)) ÷ k`. -/
def irootStep (n k u : Nat) : Nat :=
  ((k - 1) * u + n / u ^ (k - 1)) / k

/-- Main `while u < x` loop of `iroot` (`galois/integer.py`): keep applying the
Newton update while it strictly decreases, and return the last decreasing
value.  The fuel bounds the iteration count; since the current value strictly
decreases at every continuing step, fuel equal to the starting value
suffices. -/
def irootAux (n k : Nat) : Nat → Nat → Nat
  | 0, u => u
  | fuel + 1, u =>
    let u' := irootStep n k u
    if u' < u then irootAux n k fuel u' else u

/-- Function `iroot` from `galois/integer.py`: the Newton iteration started at `u = n`
(the source's `x = n + 1` guard makes the first iteration unconditional, which
this form reproduces). -/
def iroot (n k : Nat) : Nat :=
  irootAux n k n n

/-- The exponential-search loop of `ilog` (`galois/integer.py`):
`while b_high < n: low, b_low, high, b_high = high, b_high, high*2, b_high**2`.
State is `(low, b_low, high, b_high)`; the fuel bounds the iteration count. -/
def ilogExpAux (n : Nat) : Nat → Nat × Nat × Nat × Nat → Nat × Nat × Nat × Nat
  | 0, s => s
  | fuel + 1, (low, blow, high, bhigh) =>
    if bhigh < n then ilogExpAux n fuel (high, bhigh, 2 * high, bhigh ^ 2)
    else (low, blow, high, bhigh)

/-- The binary-search loop of `ilog` (`galois/integer.py`): maintain the
running power `b_low = b^low`, compute `b_mid = b_low * b^(mid - low)`, and
either narrow the bracket or return `mid` on an exact hit; after the loop,
return `high` when `b_high = n` and `low` otherwise. -/
def ilogBinAux (n b : Nat) : Nat → Nat → Nat → Nat → Nat → Nat
  | 0, low, _blow, high, bhigh => if bhigh = n then high else low
  | fuel + 1, low, blow, high, bhigh =>
    if high - low > 1 then
      let mid := (low + high) / 2
      let bmid := blow * b ^ (mid - low)
      if n < bmid then ilogBinAux n b fuel low blow mid bmid
      else if bmid < n then ilogBinAux n b fuel mid bmid high bhigh
      else mid
    else if bhigh = n then high else low

/-- Function `ilog` from `galois/integer.py`: exponential search from
`(low, b_low, high, b_high) = (0, 1, 1, b)` to bracket the exponent, then
binary search inside the bracket. -/
def ilog (n b : Nat) : Nat :=
  let s := ilogExpAux n n (0, 1, 1, b)
  ilogBinAux n b s.2.2.1 s.1 s.2.1 s.2.2.1 s.2.2.2

/-- Modelled from the spec (§4.3, §7): the scalar `divide` contract for the
lookup backend.  The `b == 0` condition is caught outside the JIT kernel (the
NOTE in `_divide`) and raised as `DivisionByZero`; that raising code is not
under `src/`, so the scalar-level check is modelled here around the in-source
kernel. -/
def divide_checked (c : LookupCtx) (a b : Nat) : Except GFError Nat :=
  if b = 0 then .error .DivisionByZero else .ok (Lookup._divide c a b)

/-- Modelled from the spec (§4.4, §7): the scalar `divide` contract for the
GF(2) calculate backend, with the `b == 0` check (caught outside the kernel
per the NOTE in `_divide_jit`) raised as `DivisionByZero`. -/
def divide_checked_gf2 (a b : Nat) : Except GFError Nat :=
  if b = 0 then .error .DivisionByZero else .ok (GF2._divide_jit a b)

/-- The lookup context with the entry `LOG[0]` overwritten by `v`, leaving
every other table entry and parameter unchanged.  `LOG[0]` is the entry the
spec declares undefined/unused. -/
def updLog (c : LookupCtx) (v : Nat) : LookupCtx :=
  { c with log := fun x => if x = 0 then v else c.log x }

/-- Modelled from the spec (§4.2, §3): the lookup tables the builder (not under
`src/`) produces for GF(2) with primitive element α = 1: `EXP[i] = 1` on the
padded range, `LOG[1] = 0` (and `LOG[0]` left at its zero initialization),
`ZECH_LOG[0]` the sentinel, and `ZECH_E = 0` since the characteristic is 2. -/
def gf2Ctx : LookupCtx :=
  { characteristic := 2
    order := 2
    exp := fun _ => 1
    log := fun _ => 0
    zechLog := fun _ => 0
    zechE := 0 }

/-- Modelled from the spec (§4.2): the prime-field reference addition
`(a + b) mod p` for GF(3), the "field's own addition" the table builder uses. -/
def gf3add (a b : Nat) : Nat := (a + b) % 3

/-- Modelled from the spec (§4.2, §3): the lookup tables for GF(3) with
primitive element α = 2: `EXP = [1, 2]` extended periodically over the padded
range, `LOG[1] = 0`, `LOG[2] = 1`, `ZECH_E = (3-1)/2 = 1` (α¹ = 2 = −1), and
`ZECH_LOG[0] = LOG(1 + α⁰) = LOG 2 = 1` with `ZECH_LOG[1]` the sentinel. -/
def gf3Ctx : LookupCtx :=
  { characteristic := 3
    order := 3
    exp := fun j => if j % 2 = 0 then 1 else 2
    log := fun a => if a = 2 then 1 else 0
    zechLog := fun i => if i = 0 then 1 else 0
    zechE := 1 }

/-- Modelled from the spec (§4.2, §3): the lookup tables for GF(5) with
primitive element α = 2: `EXP = [1, 2, 4, 3]` extended periodically over the
padded range, `LOG = [·, 0, 1, 3, 2]`, `ZECH_E = (5-1)/2 = 2` (α² = 4 = −1),
and `ZECH_LOG = [1, 3, sentinel, 2]` from `ZECH_LOG[i] = LOG(1 + α^i)`. -/
def gf5Ctx : LookupCtx :=
  { characteristic := 5
    order := 5
    exp := fun j =>
      if j % 4 = 0 then 1 else if j % 4 = 1 then 2 else if j % 4 = 2 then 4 else 3
    log := fun a => if a = 2 then 1 else if a = 3 then 3 else if a = 4 then 2 else 0
    zechLog := fun i => if i = 0 then 1 else if i = 1 then 3 else if i = 3 then 2 else 0
    zechE := 2 }

/-- Modelled from the spec (§4.4): GF(5) calculate-mode addition, `(a + b) mod p`. -/
def gf5add (a b : Nat) : Nat := (a + b) % 5

/-- Modelled from the spec (§4.4): GF(5) calculate-mode subtraction,
`(a - b) mod p` on Python integers (`Int.emod` gives Python's sign behavior). -/
def gf5sub (a b : Nat) : Nat := (((a : Int) - (b : Int)) % 5).toNat

/-- Modelled from the spec (§4.4): GF(5) calculate-mode multiplication,
`(a * b) mod p`. -/
def gf5mul (a b : Nat) : Nat := (a * b) % 5

/-- Modelled from the spec (§4.4): GF(5) calculate-mode negation, `(-a) mod p`. -/
def gf5neg (a : Nat) : Nat := ((-(a : Int)) % 5).toNat

/-- Modelled from the spec (§4.4): GF(5) multiplicative inverse by Fermat's
little theorem, `a^(p-2) mod p`. -/
def gf5inv (a : Nat) : Nat := a ^ 3 % 5

/-- Modelled from the spec (§4.4): GF(2) multiplicative inverse (1⁻¹ = 1); only
referenced by `_power_python` on negative exponents. -/
def gf2inv (a : Nat) : Nat := a

/-- The range invariants of §3 on a lookup context: the order is at least 2,
the characteristic is a prime-power base (at least 2 and at most the order),
`EXP` maps the padded index range `[0, 2·(order−1))` into field elements,
`LOG` maps nonzero field elements into `[0, order−1)`, `ZECH_E` lies in
`[0, order−1)`, and `ZECH_LOG` maps every non-sentinel index into
`[0, order−1)`. -/
structure TableBounds (c : LookupCtx) : Prop where
  horder : 2 ≤ c.order
  hchar : 2 ≤ c.characteristic
  hcharle : c.characteristic ≤ c.order
  hexp : ∀ j, j < 2 * (c.order - 1) → c.exp j < c.order
  hlog : ∀ a, a < c.order → 1 ≤ a → c.log a < c.order - 1
  hzechE : c.zechE < c.order - 1
  hzech : ∀ i, i < c.order - 1 → i ≠ c.zechE → c.zechLog i < c.order - 1

/-- Multiplication of a field element `x` by `α^i`, expressed through the
tables: `EXP[(i + LOG[x]) mod (order−1)]`, with 0 fixed.  This is the
log-domain scaling the §4.2 builder invariants are phrased with. -/
def emul (c : LookupCtx) (i x : Nat) : Nat :=
  if x = 0 then 0 else c.exp ((i + c.log x) % (c.order - 1))

/-- Correctly built lookup tables in the sense of §3/§4.2, relative to the
field's reference addition `fadd` (the "field's own addition" the builder
uses, which is not part of the lookup backend itself): `EXP` enumerates the
nonzero elements with `EXP[0] = 1` and period `order−1` on the padded range,
`LOG` inverts it, `ZECH_LOG[i] = LOG(1 + α^i)` off the sentinel with
`1 + α^ZECH_E = 0`, `fadd` is a commutative group law on `[0, order)` with
identity 0, and scaling by `α^i` distributes over `fadd`. -/
structure ValidTables (c : LookupCtx) (fadd : Nat → Nat → Nat) : Prop where
  bounds : TableBounds c
  hexp_pos : ∀ i, i < c.order - 1 → 1 ≤ c.exp i
  hexp_pad : ∀ j, j < 2 * (c.order - 1) → c.exp j = c.exp (j % (c.order - 1))
  hexp_log : ∀ a, a < c.order → 1 ≤ a → c.exp (c.log a) = a
  hlog_exp : ∀ i, i < c.order - 1 → c.log (c.exp i) = i
  hexp_zero : c.exp 0 = 1
  hfadd_lt : ∀ a, a < c.order → ∀ b, b < c.order → fadd a b < c.order
  hfadd_comm : ∀ a, a < c.order → ∀ b, b < c.order → fadd a b = fadd b a
  hfadd_assoc : ∀ a, a < c.order → ∀ b, b < c.order → ∀ d, d < c.order →
    fadd (fadd a b) d = fadd a (fadd b d)
  hfadd_zero : ∀ a, a < c.order → fadd a 0 = a
  hzech_eq : ∀ i, i < c.order - 1 → i ≠ c.zechE →
    c.exp (c.zechLog i) = fadd 1 (c.exp i)
  hzech_sent : fadd 1 (c.exp c.zechE) = 0
  hdistrib : ∀ i, i < c.order - 1 → ∀ x, x < c.order → ∀ y, y < c.order →
    emul c i (fadd x y) = fadd (emul c i x) (emul c i y)

/-- The log-domain representative of `-b` that `_subtract` uses:
`EXP[(LOG[b] + ZECH_E) mod (order−1)]`, with 0 fixed. -/
def negTable (c : LookupCtx) (b : Nat) : Nat :=
  if b = 0 then 0 else c.exp ((c.log b + c.zechE) % (c.order - 1))

namespace Lookup

section Generic

variable {c : LookupCtx} {fadd : Nat → Nat → Nat}

lemma log_one (V : ValidTables c fadd) : c.log 1 = 0 := by
  have h := V.hlog_exp 0 (by have := V.bounds.horder; omega)
  rwa [V.hexp_zero] at h

lemma exp_lt_of_lt (V : ValidTables c fadd) {i : Nat} (hi : i < c.order - 1) :
    c.exp i < c.order :=
  V.bounds.hexp i (by omega)

lemma emul_exp (V : ValidTables c fadd) {i d : Nat} (_hi : i < c.order - 1)
    (hd : d < c.order - 1) :
    emul c i (c.exp d) = c.exp ((i + d) % (c.order - 1)) := by
  have h1 : 1 ≤ c.exp d := V.hexp_pos d hd
  unfold emul
  rw [if_neg (by omega), V.hlog_exp d hd]

lemma emul_one (V : ValidTables c fadd) {i : Nat} (hi : i < c.order - 1) :
    emul c i 1 = c.exp i := by
  unfold emul
  rw [if_neg (by omega), log_one V, Nat.add_zero, Nat.mod_eq_of_lt hi]

lemma zech_formula (V : ValidTables c fadd) {mm dd : Nat} (hm : mm < c.order - 1)
    (hd : dd < c.order - 1) (hne : dd ≠ c.zechE) :
    c.exp ((mm + c.zechLog dd) % (c.order - 1)) =
      fadd (c.exp mm) (c.exp ((mm + dd) % (c.order - 1))) := by
  have hq := V.bounds.horder
  have hz : c.zechLog dd < c.order - 1 := V.bounds.hzech dd hd hne
  have h1 : (1 : Nat) < c.order := by omega
  have hed : c.exp dd < c.order := exp_lt_of_lt V hd
  calc c.exp ((mm + c.zechLog dd) % (c.order - 1))
      = emul c mm (c.exp (c.zechLog dd)) := (emul_exp V hm hz).symm
    _ = emul c mm (fadd 1 (c.exp dd)) := by rw [V.hzech_eq dd hd hne]
    _ = fadd (emul c mm 1) (emul c mm (c.exp dd)) := V.hdistrib mm hm 1 h1 _ hed
    _ = fadd (c.exp mm) (c.exp ((mm + dd) % (c.order - 1))) := by
        rw [emul_one V hm, emul_exp V hm hd]

lemma zech_sentinel (V : ValidTables c fadd) {mm : Nat} (hm : mm < c.order - 1) :
    fadd (c.exp mm) (c.exp ((mm + c.zechE) % (c.order - 1))) = 0 := by
  have hq := V.bounds.horder
  have hzE := V.bounds.hzechE
  have h1 : (1 : Nat) < c.order := by omega
  have heE : c.exp c.zechE < c.order := exp_lt_of_lt V hzE
  have h := V.hdistrib mm hm 1 h1 (c.exp c.zechE) heE
  rw [V.hzech_sent] at h
  have h0 : emul c mm 0 = 0 := by unfold emul; simp
  rw [h0] at h
  rw [emul_one V hm, emul_exp V hm hzE] at h
  exact h.symm

lemma fadd_zero_left (V : ValidTables c fadd) {b : Nat} (hb : b < c.order) :
    fadd 0 b = b := by
  have hq := V.bounds.horder
  rw [V.hfadd_comm 0 (by omega) b hb, V.hfadd_zero b hb]

/-- The zero-check-free core of `_add` computes the reference addition of
`EXP[mm]` and `EXP[nn]` when `mm ≤ nn`. -/
lemma add_core (V : ValidTables c fadd) {mm nn : Nat} (hm : mm < c.order - 1)
    (hn : nn < c.order - 1) (hle : mm ≤ nn) :
    (if nn - mm = c.zechE then 0 else c.exp (mm + c.zechLog (nn - mm))) =
      fadd (c.exp mm) (c.exp nn) := by
  have hq := V.bounds.horder
  have hd : nn - mm < c.order - 1 := by omega
  by_cases hz : nn - mm = c.zechE
  · rw [if_pos hz]
    have hs := zech_sentinel V hm
    rw [← hz] at hs
    rw [Nat.add_sub_cancel' hle, Nat.mod_eq_of_lt hn] at hs
    exact hs.symm
  · rw [if_neg hz]
    have hzl : c.zechLog (nn - mm) < c.order - 1 := V.bounds.hzech _ hd hz
    rw [V.hexp_pad (mm + c.zechLog (nn - mm)) (by omega)]
    rw [zech_formula V hm hd hz]
    rw [Nat.add_sub_cancel' hle, Nat.mod_eq_of_lt hn]

/-- Kernel `_add` computes the reference field addition on valid tables. -/
lemma add_correct (V : ValidTables c fadd) {a b : Nat} (ha : a < c.order)
    (hb : b < c.order) : _add c a b = fadd a b := by
  have hq := V.bounds.horder
  by_cases ha0 : a = 0
  · subst ha0
    rw [_add, if_pos rfl, fadd_zero_left V hb]
  by_cases hb0 : b = 0
  · subst hb0
    rw [_add, if_neg ha0, if_pos rfl, V.hfadd_zero a ha]
  have ha1 : 1 ≤ a := by omega
  have hb1 : 1 ≤ b := by omega
  have hm : c.log a < c.order - 1 := V.bounds.hlog a ha ha1
  have hn : c.log b < c.order - 1 := V.bounds.hlog b hb hb1
  rw [_add, if_neg ha0, if_neg hb0]
  simp only []
  by_cases hmn : c.log a > c.log b
  · rw [if_pos hmn]
    have h := add_core V hn hm (le_of_lt hmn)
    simp only at h ⊢
    rw [h, V.hexp_log a ha ha1, V.hexp_log b hb hb1]
    exact V.hfadd_comm b hb a ha
  · rw [if_neg hmn]
    have h := add_core V hm hn (le_of_not_lt hmn)
    simp only at h ⊢
    rw [h, V.hexp_log a ha ha1, V.hexp_log b hb hb1]

end Generic

end Lookup

section GenericSub

namespace Lookup

variable {c : LookupCtx} {fadd : Nat → Nat → Nat}

/-- Bounds on the internals of `_subtract` for nonzero operands that pass the
pre-reduction sentinel check: the reduced ZECH_LOG index stays in
`[0, order−1)` and never equals `ZECH_E`, the kept exponent `m` stays in
`[0, order−1)`, and the final EXP index stays inside the padded range. -/
lemma sub_bounds (B : TableBounds c) {a b : Nat} (ha : a < c.order)
    (ha1 : 1 ≤ a) (hb : b < c.order) (hb1 : 1 ≤ b)
    (hz : subZpre c a b ≠ c.zechE) :
    subZ c a b < c.order - 1 ∧ subZ c a b ≠ c.zechE ∧ subM c a b < c.order - 1 ∧
      subM c a b + c.zechLog (subZ c a b) < 2 * (c.order - 1) := by
  have hq := B.horder
  have hm : c.log a < c.order - 1 := B.hlog a ha ha1
  have hn : c.log b < c.order - 1 := B.hlog b hb hb1
  have hzE := B.hzechE
  unfold subZ subM subZpre subSwap at *
  by_cases hswap : c.log a > c.log b + c.zechE
  · simp only [if_pos hswap] at *
    have hzlt : c.log a - (c.log b + c.zechE) < c.order - 1 := by omega
    rw [if_neg (by omega)] at *
    refine ⟨hzlt, hz, by omega, ?_⟩
    have := B.hzech _ hzlt hz
    omega
  · simp only [if_neg hswap] at *
    by_cases hred : c.log b + c.zechE - c.log a ≥ c.order - 1
    · rw [if_pos hred] at *
      have hzlt : c.log b + c.zechE - c.log a - (c.order - 1) < c.order - 1 := by
        omega
      have hne : c.log b + c.zechE - c.log a - (c.order - 1) ≠ c.zechE := by
        omega
      refine ⟨hzlt, hne, by omega, ?_⟩
      have := B.hzech _ hzlt hne
      omega
    · rw [if_neg hred] at *
      have hzlt : c.log b + c.zechE - c.log a < c.order - 1 := by omega
      refine ⟨hzlt, hz, by omega, ?_⟩
      have := B.hzech _ hzlt hz
      omega

/-- Kernel `_subtract` computes the reference addition of `a` and the log-domain
negation of `b` on valid tables. -/
lemma subtract_correct (V : ValidTables c fadd) {a b : Nat} (ha : a < c.order)
    (hb : b < c.order) : _subtract c a b = fadd a (negTable c b) := by
  have hq := V.bounds.horder
  have hzE := V.bounds.hzechE
  by_cases hb0 : b = 0
  · subst hb0
    rw [_subtract, if_pos rfl]
    unfold negTable
    rw [if_pos rfl, V.hfadd_zero a ha]
  have hb1 : 1 ≤ b := by omega
  have hn : c.log b < c.order - 1 := V.bounds.hlog b hb hb1
  have hL : c.log b + c.zechE < 2 * (c.order - 1) := by omega
  have hLmod : (c.log b + c.zechE) % (c.order - 1) < c.order - 1 :=
    Nat.mod_lt _ (by omega)
  have hnegb : negTable c b = c.exp ((c.log b + c.zechE) % (c.order - 1)) := by
    unfold negTable; rw [if_neg hb0]
  have hneg_lt : negTable c b < c.order := by
    rw [hnegb]; exact exp_lt_of_lt V hLmod
  by_cases ha0 : a = 0
  · subst ha0
    rw [_subtract, if_neg hb0, if_pos rfl]
    rw [V.hexp_pad _ hL, ← hnegb, fadd_zero_left V hneg_lt]
  have ha1 : 1 ≤ a := by omega
  have hm : c.log a < c.order - 1 := V.bounds.hlog a ha ha1
  have hA : a = c.exp (c.log a) := (V.hexp_log a ha ha1).symm
  rw [_subtract, if_neg hb0, if_neg ha0]
  by_cases hswap : c.log a > c.log b + c.zechE
  · -- swapped: kept exponent is L := log b + zechE, z = log a - L < order - 1
    have h1 : subZpre c a b = c.log a - (c.log b + c.zechE) := by
      unfold subZpre subSwap; rw [if_pos hswap]
    have h2 : subM c a b = c.log b + c.zechE := by
      unfold subM subSwap; rw [if_pos hswap]
    have h3 : subZ c a b = c.log a - (c.log b + c.zechE) := by
      unfold subZ; rw [h1, if_neg (by omega)]
    have hLlt : c.log b + c.zechE < c.order - 1 := by omega
    have hLeq : (c.log b + c.zechE) % (c.order - 1) = c.log b + c.zechE :=
      Nat.mod_eq_of_lt hLlt
    rw [h1, h2, h3]
    by_cases hz : c.log a - (c.log b + c.zechE) = c.zechE
    · rw [if_pos hz]
      have hs := zech_sentinel V hLlt
      have hieq : c.log b + c.zechE + c.zechE = c.log a := by omega
      rw [hieq, Nat.mod_eq_of_lt hm, V.hexp_log a ha ha1] at hs
      rw [hnegb, hLeq, V.hfadd_comm a ha _ (exp_lt_of_lt V hLlt)]
      exact hs.symm
    · rw [if_neg hz]
      have hzlt : c.log a - (c.log b + c.zechE) < c.order - 1 := by omega
      have hzl := V.bounds.hzech _ hzlt hz
      rw [V.hexp_pad _ (by omega), zech_formula V hLlt hzlt hz]
      have hieq : c.log b + c.zechE + (c.log a - (c.log b + c.zechE)) =
          c.log a := by omega
      rw [hieq, Nat.mod_eq_of_lt hm, V.hexp_log a ha ha1]
      rw [hnegb, hLeq, V.hfadd_comm _ (exp_lt_of_lt V hLlt) a ha]
  · -- not swapped: kept exponent is m := log a, z = (log b + zechE) - log a
    have hle : c.log a ≤ c.log b + c.zechE := le_of_not_lt hswap
    have h1 : subZpre c a b = c.log b + c.zechE - c.log a := by
      unfold subZpre subSwap; rw [if_neg hswap]
    have h2 : subM c a b = c.log a := by
      unfold subM subSwap; rw [if_neg hswap]
    by_cases hz : c.log b + c.zechE - c.log a = c.zechE
    · rw [h1, if_pos hz]
      have hs := zech_sentinel V hm
      have hieq : c.log a + c.zechE = c.log b + c.zechE := by omega
      rw [hieq] at hs
      rw [hnegb, hA]
      exact hs.symm
    · rw [h1, if_neg hz, h2]
      by_cases hred : c.log b + c.zechE - c.log a ≥ c.order - 1
      · have h3 : subZ c a b =
            c.log b + c.zechE - c.log a - (c.order - 1) := by
          unfold subZ; rw [h1, if_pos hred]
        have hzlt : c.log b + c.zechE - c.log a - (c.order - 1) <
            c.order - 1 := by omega
        have hne : c.log b + c.zechE - c.log a - (c.order - 1) ≠ c.zechE := by
          omega
        have hzl := V.bounds.hzech _ hzlt hne
        rw [h3, V.hexp_pad _ (by omega), zech_formula V hm hzlt hne]
        have hidx : (c.log a + (c.log b + c.zechE - c.log a - (c.order - 1))) %
            (c.order - 1) = (c.log b + c.zechE) % (c.order - 1) := by
          have hx1 : c.log a + (c.log b + c.zechE - c.log a - (c.order - 1)) =
              c.log b + c.zechE - (c.order - 1) := by omega
          have hx2 : c.log b + c.zechE - (c.order - 1) < c.order - 1 := by omega
          have hx3 : c.order - 1 ≤ c.log b + c.zechE := by omega
          rw [hx1, Nat.mod_eq_of_lt hx2, Nat.mod_eq_sub_mod hx3,
            Nat.mod_eq_of_lt hx2]
        rw [hidx, ← hnegb, ← hA]
      · have h3 : subZ c a b = c.log b + c.zechE - c.log a := by
          unfold subZ; rw [h1, if_neg hred]
        have hzlt : c.log b + c.zechE - c.log a < c.order - 1 := by omega
        have hzl := V.bounds.hzech _ hzlt hz
        rw [h3, V.hexp_pad _ (by omega), zech_formula V hm hzlt hz]
        rw [Nat.add_sub_cancel' hle, ← hnegb, ← hA]

/-- The log-domain negation is the reference additive inverse. -/
lemma negTable_inverse (V : ValidTables c fadd) {b : Nat} (hb : b < c.order) :
    fadd b (negTable c b) = 0 := by
  have hq := V.bounds.horder
  have hzE := V.bounds.hzechE
  by_cases hb0 : b = 0
  · subst hb0
    unfold negTable
    rw [if_pos rfl, V.hfadd_zero 0 (by omega)]
  have hb1 : 1 ≤ b := by omega
  have hn : c.log b < c.order - 1 := V.bounds.hlog b hb hb1
  have h1 : (1 : Nat) < c.order := by omega
  have heE : c.exp c.zechE < c.order := exp_lt_of_lt V hzE
  have h := V.hdistrib (c.log b) hn 1 h1 (c.exp c.zechE) heE
  rw [V.hzech_sent] at h
  have h0 : emul c (c.log b) 0 = 0 := by unfold emul; simp
  rw [h0, emul_one V hn, emul_exp V hn hzE, V.hexp_log b hb hb1] at h
  unfold negTable
  rw [if_neg hb0]
  exact h.symm

end Lookup

end GenericSub

/-- The GF(2) tables satisfy the range invariants. -/
lemma gf2Bounds : TableBounds gf2Ctx :=
  ⟨by decide, by decide, by decide, by decide, by decide, by decide, by decide⟩

/-- The GF(3) tables satisfy the range invariants. -/
lemma gf3Bounds : TableBounds gf3Ctx :=
  ⟨by decide, by decide, by decide, by decide, by decide, by decide, by decide⟩

/-- The GF(5) tables satisfy the range invariants. -/
lemma gf5Bounds : TableBounds gf5Ctx :=
  ⟨by decide, by decide, by decide, by decide, by decide, by decide, by decide⟩

/-- The GF(3) tables are correctly built for the reference addition mod 3. -/
lemma gf3Valid : ValidTables gf3Ctx gf3add :=
  ⟨gf3Bounds, by decide, by decide, by decide, by decide, by decide, by decide,
   by decide, by decide, by decide, by decide, by decide, by decide⟩

/-- The GF(5) tables are correctly built for the reference addition mod 5. -/
lemma gf5Valid : ValidTables gf5Ctx gf5add :=
  ⟨gf5Bounds, by decide, by decide, by decide, by decide, by decide, by decide,
   by decide, by decide, by decide, by decide, by decide, by decide⟩

/-- C3: for every field element `a`, `divide(a, 0)` fails with `DivisionByZero`
in both the lookup backend and the GF(2) calculate backend; the error is the
scalar-level result, with no substituted value. -/
theorem c3_divide_by_zero_error (c : LookupCtx) (a : Nat) :
    divide_checked c a 0 = Except.error GFError.DivisionByZero ∧
      divide_checked_gf2 a 0 = Except.error GFError.DivisionByZero := by
  constructor <;> rfl

/-- C7: the polynomial evaluator computes exactly the spec's Horner recurrence
(`result ← coeffs[0]`, then `result ← add(c, multiply(result, x))` for each
subsequent coefficient, most-significant first), for any injected arithmetic
backend; in particular over GF(2), coefficients `[1, 0, 1]` at `x = 1`
evaluate to 0. -/
theorem c7_horner_eval (add mul : Nat → Nat → Nat) (c0 : Nat) (rest : List Nat)
    (x : Nat) :
    _poly_eval add mul (c0 :: rest) x = hornerSpec add mul c0 rest x ∧
      _poly_eval GF2._add_jit GF2._multiply_jit [1, 0, 1] 1 = 0 := by
  constructor
  · induction rest generalizing c0 with
    | nil => rfl
    | cons cj rest' ih =>
        rw [_poly_eval, List.foldl_cons, hornerSpec]
        exact ih (add cj (mul c0 x))
  · rfl

/-- C4: for all field elements `a, b` (including zero),
`subtract(add(a, b), b) = a`: in the lookup backend for any valid tables, and
in the GF(2) calculate backend. -/
theorem c4_subtract_add_cancel (c : LookupCtx) (fadd : Nat → Nat → Nat)
    (V : ValidTables c fadd) (a b x y : Nat) (ha : a < c.order)
    (hb : b < c.order) (hx : x < 2) (hy : y < 2) :
    Lookup._subtract c (Lookup._add c a b) b = a ∧
      GF2._subtract_jit (GF2._add_jit x y) y = x := by
  constructor
  · have hs : Lookup._add c a b = fadd a b := Lookup.add_correct V ha hb
    have hs_lt : Lookup._add c a b < c.order := by
      rw [hs]; exact V.hfadd_lt a ha b hb
    have hneg_lt : negTable c b < c.order := by
      unfold negTable
      by_cases hb0 : b = 0
      · rw [if_pos hb0]
        have := V.bounds.horder
        omega
      · rw [if_neg hb0]
        have := V.bounds.horder
        have hn : c.log b < c.order - 1 := V.bounds.hlog b hb (by omega)
        exact Lookup.exp_lt_of_lt V (Nat.mod_lt _ (by omega))
    rw [Lookup.subtract_correct V hs_lt hb, hs,
      V.hfadd_assoc a ha b hb _ hneg_lt, Lookup.negTable_inverse V hb,
      V.hfadd_zero a ha]
  · have h : ∀ u, u < 2 → ∀ v, v < 2 →
        GF2._subtract_jit (GF2._add_jit u v) v = u := by decide
    exact h x hx y hy

/-- C5: `power(a, order − 1) = 1` for every nonzero `a`: in the lookup backend
for any valid tables (the exponent is reduced mod `order − 1` before indexing
EXP), and in the GF(2) calculate backend, both through the square-and-multiply
`_power_python` and through `_power_jit`. -/
theorem c5_power_order_minus_one (c : LookupCtx) (fadd : Nat → Nat → Nat)
    (V : ValidTables c fadd) (a x : Nat) (ha1 : 1 ≤ a) (ha : a < c.order)
    (hx1 : 1 ≤ x) (hx : x < 2) :
    Lookup._power c a ((c.order : Int) - 1) = 1 ∧
      _power_python GF2._multiply_jit gf2inv x ((2 : Int) - 1) = 1 ∧
      GF2._power_jit x ((2 : Int) - 1) = 1 := by
  have hq := V.bounds.horder
  refine ⟨?_, ?_, ?_⟩
  · have he : ((c.order : Int) - 1) ≠ 0 := by
      have : (2 : Int) ≤ (c.order : Int) := by exact_mod_cast hq
      omega
    rw [Lookup._power, if_neg he, if_neg (by omega)]
    have hmod : ((c.log a : Int) * ((c.order : Int) - 1)) %
        ((c.order : Int) - 1) = 0 := Int.mul_emod_left _ _
    rw [hmod]
    exact V.hexp_zero
  · have hx1' : x = 1 := by omega
    subst hx1'
    rfl
  · have hx1' : x = 1 := by omega
    subst hx1'
    rfl

/-- C10: for nonzero operands that pass `_subtract`'s pre-reduction sentinel
check, the reduced ZECH_LOG index lies in `[0, order−1)` and never equals
`ZECH_E` (so the sentinel entry never feeds an EXP index), and the final EXP
index `m + ZECH_LOG[z]` stays below `2·(order−1)`, inside the padded EXP
table. -/
theorem c10_subtract_index_safe (c : LookupCtx) (B : TableBounds c)
    (a b : Nat) (ha1 : 1 ≤ a) (ha : a < c.order) (hb1 : 1 ≤ b)
    (hb : b < c.order) (hz : Lookup.subZpre c a b ≠ c.zechE) :
    Lookup.subZ c a b < c.order - 1 ∧ Lookup.subZ c a b ≠ c.zechE ∧
      Lookup.subM c a b + c.zechLog (Lookup.subZ c a b) < 2 * (c.order - 1) :=
  have h := Lookup.sub_bounds B ha ha1 hb hb1 hz
  ⟨h.1, h.2.1, h.2.2.2⟩

/-- C6: closure of the lookup backend: with tables satisfying the §3 range
invariants, every operation applied to field elements in `[0, order)` and
outside its declared failure cases returns a field element in `[0, order)`. -/
theorem c6_lookup_closure (c : LookupCtx) (B : TableBounds c) (a b : Nat)
    (kk ee : Int) (ha : a < c.order) (hb : b < c.order) :
    Lookup._add c a b < c.order ∧
    Lookup._subtract c a b < c.order ∧
    Lookup._multiply c a b < c.order ∧
    (b ≠ 0 → Lookup._divide c a b < c.order) ∧
    Lookup._additive_inverse c a < c.order ∧
    (a ≠ 0 → Lookup._multiplicative_inverse c a < c.order) ∧
    Lookup._multiple_add c a kk < c.order ∧
    (¬(a = 0 ∧ ee < 0) → Lookup._power c a ee < c.order) ∧
    (a ≠ 0 → Lookup._log c a < c.order) := by
  have hq := B.horder
  have hzE := B.hzechE
  refine ⟨?_, ?_, ?_, ?_, ?_, ?_, ?_, ?_, ?_⟩
  · -- add
    rw [Lookup._add]
    by_cases ha0 : a = 0
    · rw [if_pos ha0]; exact hb
    rw [if_neg ha0]
    by_cases hb0 : b = 0
    · rw [if_pos hb0]; exact ha
    rw [if_neg hb0]
    have hm : c.log a < c.order - 1 := B.hlog a ha (by omega)
    have hn : c.log b < c.order - 1 := B.hlog b hb (by omega)
    simp only []
    by_cases hmn : c.log a > c.log b
    · rw [if_pos hmn]
      dsimp only
      by_cases hd : c.log a - c.log b = c.zechE
      · rw [if_pos hd]; omega
      · rw [if_neg hd]
        have := B.hzech _ (show c.log a - c.log b < c.order - 1 by omega) hd
        exact B.hexp _ (by omega)
    · rw [if_neg hmn]
      dsimp only
      by_cases hd : c.log b - c.log a = c.zechE
      · rw [if_pos hd]; omega
      · rw [if_neg hd]
        have := B.hzech _ (show c.log b - c.log a < c.order - 1 by omega) hd
        exact B.hexp _ (by omega)
  · -- subtract
    rw [Lookup._subtract]
    by_cases hb0 : b = 0
    · rw [if_pos hb0]; exact ha
    rw [if_neg hb0]
    have hn : c.log b < c.order - 1 := B.hlog b hb (by omega)
    by_cases ha0 : a = 0
    · rw [if_pos ha0]
      exact B.hexp _ (by omega)
    rw [if_neg ha0]
    by_cases hz : Lookup.subZpre c a b = c.zechE
    · rw [if_pos hz]; omega
    rw [if_neg hz]
    have h := Lookup.sub_bounds B ha (by omega) hb (by omega) hz
    exact B.hexp _ h.2.2.2
  · -- multiply
    rw [Lookup._multiply]
    by_cases h0 : a = 0 ∨ b = 0
    · rw [if_pos h0]; omega
    rw [if_neg h0]
    push_neg at h0
    have hm : c.log a < c.order - 1 := B.hlog a ha (by omega)
    have hn : c.log b < c.order - 1 := B.hlog b hb (by omega)
    exact B.hexp _ (by omega)
  · -- divide, b ≠ 0
    intro hb0
    rw [Lookup._divide]
    by_cases h0 : a = 0 ∨ b = 0
    · rw [if_pos h0]; omega
    rw [if_neg h0]
    push_neg at h0
    have hm : c.log a < c.order - 1 := B.hlog a ha (by omega)
    have hn : c.log b < c.order - 1 := B.hlog b hb (by omega)
    exact B.hexp _ (by omega)
  · -- negate
    rw [Lookup._additive_inverse]
    by_cases ha0 : a = 0
    · rw [if_pos ha0]; omega
    rw [if_neg ha0]
    have hm : c.log a < c.order - 1 := B.hlog a ha (by omega)
    exact B.hexp _ (by omega)
  · -- multiplicative inverse, a ≠ 0
    intro ha0
    rw [Lookup._multiplicative_inverse, if_neg ha0]
    have hm : c.log a < c.order - 1 := B.hlog a ha (by omega)
    exact B.hexp _ (by omega)
  · -- multiply by integer
    rw [Lookup._multiple_add]
    by_cases h0 : a = 0 ∨ (kk % (c.characteristic : Int)).toNat = 0
    · rw [if_pos h0]; omega
    rw [if_neg h0]
    push_neg at h0
    have hp : (0 : Int) < (c.characteristic : Int) := by
      have := B.hchar; exact_mod_cast (by omega : 0 < c.characteristic)
    have hblt : (kk % (c.characteristic : Int)).toNat < c.characteristic := by
      have h1 : kk % (c.characteristic : Int) < (c.characteristic : Int) :=
        Int.emod_lt_of_pos kk hp
      have h2 : (0 : Int) ≤ kk % (c.characteristic : Int) :=
        Int.emod_nonneg kk (by omega)
      omega
    have hm : c.log a < c.order - 1 := B.hlog a ha (by omega)
    have hn : c.log ((kk % (c.characteristic : Int)).toNat) < c.order - 1 :=
      B.hlog _ (by have := B.hcharle; omega) (by omega)
    exact B.hexp _ (by omega)
  · -- power, outside the (a = 0 ∧ ee < 0) failure case
    intro _h
    rw [Lookup._power]
    by_cases he : ee = 0
    · rw [if_pos he]; omega
    rw [if_neg he]
    by_cases ha0 : a = 0
    · rw [if_pos ha0]; omega
    rw [if_neg ha0]
    have hd : (0 : Int) < (c.order : Int) - 1 := by
      have : (2 : Int) ≤ (c.order : Int) := by exact_mod_cast hq
      omega
    have h1 : ((c.log a : Int) * ee) % ((c.order : Int) - 1) <
        (c.order : Int) - 1 := Int.emod_lt_of_pos _ hd
    have h2 : (0 : Int) ≤ ((c.log a : Int) * ee) % ((c.order : Int) - 1) :=
      Int.emod_nonneg _ (by omega)
    have h3 : (((c.log a : Int) * ee) % ((c.order : Int) - 1)).toNat <
        c.order - 1 := by omega
    exact B.hexp _ (by omega)
  · -- discrete log, a ≠ 0
    intro ha0
    rw [Lookup._log]
    have := B.hlog a ha (by omega)
    omega

/-- C2 counterexample: `_log`'s kernel has no zero branch and returns `LOG[a]`
unconditionally, so calling it on the zero element reads (and returns) the
entry `LOG[0]`: two table sets that differ only in `LOG[0]` give different
results at `a = 0`.  This refutes the claim that in every lookup-mode
operation an explicit zero branch prevents `LOG[0]` from ever being read. -/
theorem c2_log_zero_read_cex :
    Lookup._log (updLog gf2Ctx 7) 0 ≠ Lookup._log gf2Ctx 0 := by decide

/-- C2 (amended): the lookup kernels fetch `LOG[a]`/`LOG[b]` before their zero
branches, so `LOG[0]` is read when an argument is zero; but in every operation
except `discrete_log` the explicit zero branch returns before the fetched
value is used, so results are independent of the contents of `LOG[0]`
(`discrete_log` itself returns `LOG[0]` on the zero element, whose rejection
happens outside the kernel). -/
theorem c2_zero_branch_before_use (c : LookupCtx) (v a b : Nat) (kk ee : Int) :
    Lookup._add (updLog c v) a b = Lookup._add c a b ∧
    Lookup._subtract (updLog c v) a b = Lookup._subtract c a b ∧
    Lookup._multiply (updLog c v) a b = Lookup._multiply c a b ∧
    Lookup._divide (updLog c v) a b = Lookup._divide c a b ∧
    Lookup._additive_inverse (updLog c v) a = Lookup._additive_inverse c a ∧
    Lookup._multiplicative_inverse (updLog c v) a =
      Lookup._multiplicative_inverse c a ∧
    Lookup._multiple_add (updLog c v) a kk = Lookup._multiple_add c a kk ∧
    Lookup._power (updLog c v) a ee = Lookup._power c a ee ∧
    (a ≠ 0 → Lookup._log (updLog c v) a = Lookup._log c a) := by
  have hupd : ∀ x : Nat, x ≠ 0 → (updLog c v).log x = c.log x := by
    intro x hx
    unfold updLog
    simp only [if_neg hx]
  have hfields : (updLog c v).exp = c.exp ∧ (updLog c v).zechLog = c.zechLog ∧
      (updLog c v).zechE = c.zechE ∧ (updLog c v).order = c.order ∧
      (updLog c v).characteristic = c.characteristic := by
    unfold updLog
    exact ⟨rfl, rfl, rfl, rfl, rfl⟩
  obtain ⟨he, hzl, hze, hor, hch⟩ := hfields
  refine ⟨?_, ?_, ?_, ?_, ?_, ?_, ?_, ?_, ?_⟩
  · -- add
    rw [Lookup._add, Lookup._add]
    by_cases ha0 : a = 0
    · rw [if_pos ha0, if_pos ha0]
    by_cases hb0 : b = 0
    · rw [if_neg ha0, if_pos hb0, if_neg ha0, if_pos hb0]
    rw [if_neg ha0, if_neg hb0, if_neg ha0, if_neg hb0,
      hupd a ha0, hupd b hb0, he, hzl, hze]
  · -- subtract
    rw [Lookup._subtract, Lookup._subtract]
    by_cases hb0 : b = 0
    · rw [if_pos hb0, if_pos hb0]
    have hpre : Lookup.subZpre (updLog c v) a b = Lookup.subZpre c a b ∨ a = 0 := by
      by_cases ha0 : a = 0
      · exact Or.inr ha0
      · left
        unfold Lookup.subZpre Lookup.subSwap
        rw [hupd a ha0, hupd b hb0, hze]
    by_cases ha0 : a = 0
    · rw [if_neg hb0, if_pos ha0, if_neg hb0, if_pos ha0,
        hupd b hb0, he, hze]
    rcases hpre with hpre | hpre
    swap
    · exact absurd hpre ha0
    rw [if_neg hb0, if_neg ha0, if_neg hb0, if_neg ha0, hpre, hze]
    have hZ : Lookup.subZ (updLog c v) a b = Lookup.subZ c a b := by
      unfold Lookup.subZ
      rw [hpre, hor]
    have hM : Lookup.subM (updLog c v) a b = Lookup.subM c a b := by
      unfold Lookup.subM Lookup.subSwap
      rw [hupd a ha0, hupd b hb0, hze]
    rw [hZ, hM, he, hzl]
  · -- multiply
    rw [Lookup._multiply, Lookup._multiply]
    by_cases h0 : a = 0 ∨ b = 0
    · rw [if_pos h0, if_pos h0]
    rw [if_neg h0, if_neg h0]
    push_neg at h0
    rw [hupd a h0.1, hupd b h0.2, he]
  · -- divide
    rw [Lookup._divide, Lookup._divide]
    by_cases h0 : a = 0 ∨ b = 0
    · rw [if_pos h0, if_pos h0]
    rw [if_neg h0, if_neg h0]
    push_neg at h0
    rw [hupd a h0.1, hupd b h0.2, he, hor]
  · -- negate
    rw [Lookup._additive_inverse, Lookup._additive_inverse]
    by_cases ha0 : a = 0
    · rw [if_pos ha0, if_pos ha0]
    rw [if_neg ha0, if_neg ha0, hupd a ha0, he, hze]
  · -- multiplicative inverse
    rw [Lookup._multiplicative_inverse, Lookup._multiplicative_inverse]
    by_cases ha0 : a = 0
    · rw [if_pos ha0, if_pos ha0]
    rw [if_neg ha0, if_neg ha0, hupd a ha0, he, hor]
  · -- multiply by integer
    rw [Lookup._multiple_add, Lookup._multiple_add, hch]
    by_cases h0 : a = 0 ∨ (kk % (c.characteristic : Int)).toNat = 0
    · rw [if_pos h0, if_pos h0]
    rw [if_neg h0, if_neg h0]
    push_neg at h0
    rw [hupd a h0.1, hupd _ h0.2, he]
  · -- power
    rw [Lookup._power, Lookup._power]
    by_cases he0 : ee = 0
    · rw [if_pos he0, if_pos he0]
    by_cases ha0 : a = 0
    · rw [if_neg he0, if_pos ha0, if_neg he0, if_pos ha0]
    rw [if_neg he0, if_neg ha0, if_neg he0, if_neg ha0,
      hupd a ha0, he, hor]
  · -- discrete log on nonzero elements
    intro ha0
    rw [Lookup._log, Lookup._log, hupd a ha0]

/-- C2 amended-claim witness at concrete inputs. -/
theorem c2_zero_branch_before_use_witness :
    Lookup._add (updLog gf2Ctx 7) 0 1 = Lookup._add gf2Ctx 0 1 ∧
      (1 ≠ 0 → Lookup._log (updLog gf2Ctx 7) 1 = Lookup._log gf2Ctx 1) :=
  have h := c2_zero_branch_before_use gf2Ctx 7 1 1 5 (-2)
  ⟨c2_zero_branch_before_use gf2Ctx 7 0 1 5 (-2) |>.1, h.2.2.2.2.2.2.2.2⟩

/-- C1: over GF(2), the lookup backend run on the correctly built tables and
the calculate backend of `meta_gf2.py` return identical results for add,
subtract, multiply, divide, negate, power (any integer exponent) and
discrete_log on every pair of field elements; lookup add/subtract equal
bitwise XOR and lookup multiply equals bitwise AND.  Over GF(5), the lookup
backend agrees with the table-free prime-field arithmetic (mod-p formulas,
Fermat inversion, square-and-multiply `_power_python`, naive `_log_python`)
on every pair of field elements. -/
theorem c1_lookup_calculate_agree (a b u v e5 : Nat) (e : Int) (ha : a < 2)
    (hb : b < 2) (hu : u < 5) (hv : v < 5) (he5 : e5 < 5) :
    (Lookup._add gf2Ctx a b = GF2._add_jit a b ∧
     Lookup._subtract gf2Ctx a b = GF2._subtract_jit a b ∧
     Lookup._multiply gf2Ctx a b = GF2._multiply_jit a b ∧
     Lookup._divide gf2Ctx a b = GF2._divide_jit a b ∧
     Lookup._additive_inverse gf2Ctx a = GF2._negative_jit a ∧
     Lookup._power gf2Ctx a e = GF2._power_jit a e ∧
     Lookup._log gf2Ctx a = GF2._log_jit a) ∧
    (Lookup._add gf2Ctx a b = a ^^^ b ∧
     Lookup._subtract gf2Ctx a b = a ^^^ b ∧
     Lookup._multiply gf2Ctx a b = a &&& b) ∧
    (Lookup._add gf5Ctx u v = gf5add u v ∧
     Lookup._subtract gf5Ctx u v = gf5sub u v ∧
     Lookup._multiply gf5Ctx u v = gf5mul u v ∧
     Lookup._divide gf5Ctx u v = _divide_python gf5mul gf5inv u v ∧
     Lookup._additive_inverse gf5Ctx u = gf5neg u ∧
     Lookup._power gf5Ctx u (e5 : Int) = _power_python gf5mul gf5inv u (e5 : Int) ∧
     (1 ≤ u → Lookup._log gf5Ctx u = _log_python gf5mul 5 2 u)) := by
  have hpow : ∀ x : Nat, x < 2 → Lookup._power gf2Ctx x e = GF2._power_jit x e := by
    intro x hx
    interval_cases x
    · unfold Lookup._power GF2._power_jit gf2Ctx
      simp
    · unfold Lookup._power GF2._power_jit gf2Ctx
      simp
  have h2 : ∀ x, x < 2 → ∀ y, y < 2 →
      Lookup._add gf2Ctx x y = GF2._add_jit x y ∧
      Lookup._subtract gf2Ctx x y = GF2._subtract_jit x y ∧
      Lookup._multiply gf2Ctx x y = GF2._multiply_jit x y ∧
      Lookup._divide gf2Ctx x y = GF2._divide_jit x y ∧
      Lookup._additive_inverse gf2Ctx x = GF2._negative_jit x ∧
      Lookup._log gf2Ctx x = GF2._log_jit x ∧
      Lookup._add gf2Ctx x y = x ^^^ y ∧
      Lookup._subtract gf2Ctx x y = x ^^^ y ∧
      Lookup._multiply gf2Ctx x y = x &&& y := by decide
  have h5 : ∀ x, x < 5 → ∀ y, y < 5 →
      Lookup._add gf5Ctx x y = gf5add x y ∧
      Lookup._subtract gf5Ctx x y = gf5sub x y ∧
      Lookup._multiply gf5Ctx x y = gf5mul x y ∧
      Lookup._divide gf5Ctx x y = _divide_python gf5mul gf5inv x y ∧
      Lookup._additive_inverse gf5Ctx x = gf5neg x := by decide
  have h5p : ∀ x, x < 5 → ∀ z : Nat, z < 5 →
      Lookup._power gf5Ctx x (z : Int) =
        _power_python gf5mul gf5inv x (z : Int) := by decide
  have h5l : ∀ x, x < 5 → 1 ≤ x →
      Lookup._log gf5Ctx x = _log_python gf5mul 5 2 x := by decide
  obtain ⟨g1, g2, g3, g4, g5, g6, g7, g8, g9⟩ := h2 a ha b hb
  obtain ⟨f1, f2, f3, f4, f5⟩ := h5 u hu v hv
  exact ⟨⟨g1, g2, g3, g4, g5, hpow a ha, g6⟩, ⟨g7, g8, g9⟩,
    ⟨f1, f2, f3, f4, f5, h5p u hu e5 he5, fun h1 => h5l u hu h1⟩⟩

/-- C1 witness at concrete inputs over GF(2) and GF(5). -/
theorem c1_lookup_calculate_agree_witness :
    1 < 2 ∧ 0 < 2 ∧ 3 < 5 ∧ 2 < 5 ∧ 4 < 5 ∧
      (Lookup._add gf2Ctx 1 0 = GF2._add_jit 1 0 ∧
        Lookup._multiply gf2Ctx 1 0 = 1 &&& 0 ∧
        Lookup._power gf5Ctx 3 ((4 : Nat) : Int) =
          _power_python gf5mul gf5inv 3 ((4 : Nat) : Int)) := by
  have h := c1_lookup_calculate_agree 1 0 3 2 4 (-7) (by decide) (by decide)
    (by decide) (by decide) (by decide)
  exact ⟨by decide, by decide, by decide, by decide, by decide,
    h.1.1, h.2.1.2.2, h.2.2.2.2.2.2.2.1⟩

/-- C4 witness: the lookup round trip on the valid GF(3) tables at
`a = 1, b = 2`, and the GF(2) calculate round trip at `x = y = 1`. -/
theorem c4_subtract_add_cancel_witness :
    ValidTables gf3Ctx gf3add ∧ 1 < 3 ∧ 2 < 3 ∧
      (Lookup._subtract gf3Ctx (Lookup._add gf3Ctx 1 2) 2 = 1 ∧
        GF2._subtract_jit (GF2._add_jit 1 1) 1 = 1) :=
  ⟨gf3Valid, by decide, by decide,
    c4_subtract_add_cancel gf3Ctx gf3add gf3Valid 1 2 1 1 (by decide)
      (by decide) (by decide) (by decide)⟩

/-- C5 witness: `power(a, order − 1) = 1` on the valid GF(3) tables at
`a = 2`, and in the GF(2) calculate backend at `x = 1`. -/
theorem c5_power_order_minus_one_witness :
    ValidTables gf3Ctx gf3add ∧ 1 ≤ 2 ∧ 2 < 3 ∧ 1 ≤ 1 ∧ 1 < 2 ∧
      (Lookup._power gf3Ctx 2 (((3 : Nat) : Int) - 1) = 1 ∧
        _power_python GF2._multiply_jit gf2inv 1 ((2 : Int) - 1) = 1 ∧
        GF2._power_jit 1 ((2 : Int) - 1) = 1) := by
  have h := c5_power_order_minus_one gf3Ctx gf3add gf3Valid 2 1 (by decide)
    (by decide) (by decide) (by decide)
  exact ⟨gf3Valid, by decide, by decide, by decide, by decide,
    ⟨h.1, h.2.1, h.2.2⟩⟩

/-- C6 witness: closure of every lookup operation on the GF(3) tables at
`a = 2, b = 1`, integer arguments `-4` and `-3`. -/
theorem c6_lookup_closure_witness :
    TableBounds gf3Ctx ∧ 2 < 3 ∧ 1 < 3 ∧
      (Lookup._add gf3Ctx 2 1 < 3 ∧
        Lookup._subtract gf3Ctx 2 1 < 3 ∧
        Lookup._multiply gf3Ctx 2 1 < 3 ∧
        (1 ≠ 0 → Lookup._divide gf3Ctx 2 1 < 3) ∧
        Lookup._additive_inverse gf3Ctx 2 < 3 ∧
        (2 ≠ 0 → Lookup._multiplicative_inverse gf3Ctx 2 < 3) ∧
        Lookup._multiple_add gf3Ctx 2 (-4) < 3 ∧
        (¬(2 = 0 ∧ (-3 : Int) < 0) → Lookup._power gf3Ctx 2 (-3) < 3) ∧
        (2 ≠ 0 → Lookup._log gf3Ctx 2 < 3)) :=
  ⟨gf3Bounds, by decide, by decide,
    c6_lookup_closure gf3Ctx gf3Bounds 2 1 (-4) (-3) (by decide) (by decide)⟩

/-- C10 witness: the subtract-internal bounds on the GF(3) tables at
`a = 1, b = 2`, where the pre-reduction index passes the sentinel check and
the reduction by `order − 1` fires. -/
theorem c10_subtract_index_safe_witness :
    TableBounds gf3Ctx ∧ 1 ≤ 1 ∧ 1 < 3 ∧ 1 ≤ 2 ∧ 2 < 3 ∧
      Lookup.subZpre gf3Ctx 1 2 ≠ gf3Ctx.zechE ∧
      (Lookup.subZ gf3Ctx 1 2 < 3 - 1 ∧ Lookup.subZ gf3Ctx 1 2 ≠ gf3Ctx.zechE ∧
        Lookup.subM gf3Ctx 1 2 + gf3Ctx.zechLog (Lookup.subZ gf3Ctx 1 2) <
          2 * (3 - 1)) :=
  ⟨gf3Bounds, by decide, by decide, by decide, by decide, by decide,
    c10_subtract_index_safe gf3Ctx gf3Bounds 1 2 (by decide) (by decide)
      (by decide) (by decide) (by decide)⟩

lemma mul_rearrange {a b x y : Nat} (hab : a ≤ b) (hxy : x ≤ y) :
    a * y + b * x ≤ b * y + a * x := by
  zify
  nlinarith [mul_nonneg (sub_nonneg.2 (Int.ofNat_le.2 hab))
    (sub_nonneg.2 (Int.ofNat_le.2 hxy))]

lemma pow_rearrange (u r k : Nat) :
    r ^ k * u + r * u ^ k ≤ u ^ (k + 1) + r ^ (k + 1) := by
  rcases le_total r u with h | h
  · have hp : r ^ k ≤ u ^ k := Nat.pow_le_pow_left h k
    have hre := mul_rearrange hp h
    calc r ^ k * u + r * u ^ k = r ^ k * u + u ^ k * r := by ring
      _ ≤ u ^ k * u + r ^ k * r := hre
      _ = u ^ (k + 1) + r ^ (k + 1) := by ring
  · have hp : u ^ k ≤ r ^ k := Nat.pow_le_pow_left h k
    have hre := mul_rearrange hp h
    calc r ^ k * u + r * u ^ k = u ^ k * r + r ^ k * u := by ring
      _ ≤ r ^ k * r + u ^ k * u := hre
      _ = u ^ (k + 1) + r ^ (k + 1) := by ring

/-- The integer arithmetic-geometric mean bound behind the Newton iteration:
`k·r·u^(k-1) ≤ (k-1)·u^k + r^k` for `k ≥ 1`. -/
lemma newton_amgm (r u : Nat) : ∀ k, 1 ≤ k →
    k * r * u ^ (k - 1) ≤ (k - 1) * u ^ k + r ^ k := by
  intro k
  induction k with
  | zero => omega
  | succ k ih =>
    intro _
    have hgoal : (k + 1) * r * u ^ k ≤ k * u ^ (k + 1) + r ^ (k + 1) := by
      by_cases hk : 1 ≤ k
      · have h1 := ih hk
        have h2 : (k * r * u ^ (k - 1)) * u ≤ ((k - 1) * u ^ k + r ^ k) * u :=
          Nat.mul_le_mul_right u h1
        have hpow : u ^ (k - 1) * u = u ^ k := by
          rw [← pow_succ]
          congr 1
          omega
        have e1 : k * r * u ^ (k - 1) * u = k * r * u ^ k := by
          rw [mul_assoc (k * r), hpow]
        have e2 : ((k - 1) * u ^ k + r ^ k) * u =
            (k - 1) * u ^ (k + 1) + r ^ k * u := by
          rw [add_mul, mul_assoc, ← pow_succ]
        have h3 : k * r * u ^ k ≤ (k - 1) * u ^ (k + 1) + r ^ k * u := by
          rw [← e1, ← e2]
          exact h2
        have h4 := pow_rearrange u r k
        have h5 : (k + 1) * r * u ^ k = k * r * u ^ k + r * u ^ k := by ring
        have h6 : (k - 1) * u ^ (k + 1) + u ^ (k + 1) = k * u ^ (k + 1) := by
          have hkk : k - 1 + 1 = k := by omega
          calc (k - 1) * u ^ (k + 1) + u ^ (k + 1)
              = (k - 1 + 1) * u ^ (k + 1) := by ring
            _ = k * u ^ (k + 1) := by rw [hkk]
        omega
      · have hk0 : k = 0 := by omega
        subst hk0
        simp
    simpa using hgoal

/-- Every Newton step stays at or above any `r` with `r^k ≤ n`. -/
lemma irootStep_ge {n k r : Nat} (hk : 2 ≤ k) (hr : r ^ k ≤ n) (u : Nat)
    (hu : 1 ≤ u) : r ≤ irootStep n k u := by
  have hkpos : 0 < k := by omega
  rw [irootStep, Nat.le_div_iff_mul_le hkpos]
  by_cases hcase : k * r ≤ (k - 1) * u
  · calc r * k = k * r := by ring
      _ ≤ (k - 1) * u := hcase
      _ ≤ (k - 1) * u + n / u ^ (k - 1) := Nat.le_add_right _ _
  · -- show n / u^(k-1) covers the deficit
    push_neg at hcase
    have hU : 0 < u ^ (k - 1) := Nat.pos_pow_of_pos _ hu
    by_contra hcon
    push_neg at hcon
    have hcomm : r * k = k * r := Nat.mul_comm r k
    have hq0 : n / u ^ (k - 1) + 1 ≤ k * r - (k - 1) * u := by omega
    have hnlt : n < (n / u ^ (k - 1) + 1) * u ^ (k - 1) := by
      have hdm := Nat.div_add_mod n (u ^ (k - 1))
      have hmod := Nat.mod_lt n hU
      have : (n / u ^ (k - 1) + 1) * u ^ (k - 1) =
          u ^ (k - 1) * (n / u ^ (k - 1)) + u ^ (k - 1) := by ring
      omega
    have hnlt2 : n < (k * r - (k - 1) * u) * u ^ (k - 1) := by
      calc n < (n / u ^ (k - 1) + 1) * u ^ (k - 1) := hnlt
        _ ≤ (k * r - (k - 1) * u) * u ^ (k - 1) :=
          Nat.mul_le_mul_right _ hq0
    have hamgm := newton_amgm r u k (by omega)
    have hexp : (k - 1) * u * u ^ (k - 1) = (k - 1) * u ^ k := by
      have : u * u ^ (k - 1) = u ^ k := by
        rw [mul_comm, ← pow_succ]
        congr 1
        omega
      calc (k - 1) * u * u ^ (k - 1) = (k - 1) * (u * u ^ (k - 1)) := by ring
        _ = (k - 1) * u ^ k := by rw [this]
    have hsub : (k * r - (k - 1) * u) * u ^ (k - 1) ≤ r ^ k := by
      have hdist : (k * r - (k - 1) * u) * u ^ (k - 1) =
          k * r * u ^ (k - 1) - (k - 1) * u * u ^ (k - 1) :=
        Nat.sub_mul _ _ _
      rw [hdist, hexp]
      omega
    omega

/-- Above the root the Newton step strictly decreases. -/
lemma irootStep_lt {n k u : Nat} (hk : 2 ≤ k) (hu : 1 ≤ u)
    (hn : n < u ^ k) : irootStep n k u < u := by
  have hkpos : 0 < k := by omega
  have hU : 0 < u ^ (k - 1) := Nat.pos_pow_of_pos _ hu
  rw [irootStep, Nat.div_lt_iff_lt_mul hkpos]
  have hup : u ^ (k - 1) * u = u ^ k := by
    rw [← pow_succ]
    congr 1
    omega
  have hdiv : n / u ^ (k - 1) < u := by
    rw [Nat.div_lt_iff_lt_mul hU]
    calc n < u ^ k := hn
      _ = u ^ (k - 1) * u := hup.symm
      _ = u * u ^ (k - 1) := by ring
  calc (k - 1) * u + n / u ^ (k - 1) < (k - 1) * u + u := by omega
    _ = u * k := by
      have hkk : k - 1 + 1 = k := by omega
      calc (k - 1) * u + u = (k - 1 + 1) * u := by ring
        _ = u * k := by rw [hkk]; ring

/-- The fueled Newton loop lands exactly on the greatest `r` with `r^k ≤ n`. -/
lemma irootAux_eq {n k r : Nat} (hk : 2 ≤ k) (hr : r ^ k ≤ n)
    (hmax : ∀ x, x ^ k ≤ n → x ≤ r) (hr1 : 1 ≤ r) :
    ∀ fuel u, r ≤ u → u ≤ fuel + r → irootAux n k fuel u = r := by
  intro fuel
  induction fuel with
  | zero =>
    intro u h1 h2
    have hur : u = r := by omega
    simp [irootAux, hur]
  | succ fuel ih =>
    intro u h1 h2
    rcases eq_or_lt_of_le h1 with heq | hlt
    · -- u = r: the step does not decrease below r, loop exits
      have hge : r ≤ irootStep n k u := irootStep_ge hk hr u (by omega)
      rw [irootAux]
      rw [if_neg (by omega), heq]
    · -- u > r: u^k > n, the step decreases and stays at or above r
      have hnu : n < u ^ k := by
        by_contra hcon
        push_neg at hcon
        have := hmax u hcon
        omega
      have hstep_lt : irootStep n k u < u := irootStep_lt hk (by omega) hnu
      have hstep_ge : r ≤ irootStep n k u := irootStep_ge hk hr u (by omega)
      rw [irootAux]
      rw [if_pos hstep_lt]
      exact ih (irootStep n k u) hstep_ge (by omega)

lemma iroot_eq {n k r : Nat} (hk : 2 ≤ k) (hr : r ^ k ≤ n)
    (hmax : ∀ x, x ^ k ≤ n → x ≤ r) (hr1 : 1 ≤ r) : iroot n k = r := by
  have hrn : r ≤ n := le_trans (Nat.le_self_pow (by omega) r) hr
  exact irootAux_eq hk hr hmax hr1 n n hrn (by omega)


/-- C8: for `n ≥ 1` and `k ≥ 2` the Newton iteration of `iroot` terminates
(each step strictly decreases until it stops) and returns the largest integer
`x` with `x^k ≤ n`; in particular `iroot (27^5 − 1) 5 = 26`,
`iroot (27^5) 5 = 27`, and `iroot 1 k = 1`. -/
theorem c8_iroot_correct (n k x : Nat) (hn : 1 ≤ n) (hk : 2 ≤ k) :
    (iroot n k) ^ k ≤ n ∧ (x ^ k ≤ n → x ≤ iroot n k) ∧
      iroot (27 ^ 5 - 1) 5 = 26 ∧ iroot (27 ^ 5) 5 = 27 ∧ iroot 1 k = 1 := by
  have hmain : (iroot n k) ^ k ≤ n ∧ ∀ y, y ^ k ≤ n → y ≤ iroot n k := by
    set r := Nat.findGreatest (fun y => y ^ k ≤ n) n with hrdef
    have h1k : (1 : Nat) ^ k ≤ n := by simpa using hn
    have hr1 : 1 ≤ r := Nat.le_findGreatest (P := fun y => y ^ k ≤ n) hn h1k
    have hrP : r ^ k ≤ n :=
      Nat.findGreatest_spec (P := fun y => y ^ k ≤ n) hn h1k
    have hmax : ∀ y, y ^ k ≤ n → y ≤ r := fun y hy =>
      Nat.le_findGreatest (le_trans (Nat.le_self_pow (by omega) y) hy) hy
    rw [iroot_eq hk hrP hmax hr1]
    exact ⟨hrP, hmax⟩
  refine ⟨hmain.1, hmain.2 x, by decide, by decide, ?_⟩
  exact iroot_eq hk (by simp)
    (fun y hy => le_trans (Nat.le_self_pow (by omega) y) hy) (by omega)

/-- C8 witness at `n = 10`, `k = 2`, `x = 3`. -/
theorem c8_iroot_correct_witness :
    1 ≤ 10 ∧ 2 ≤ 2 ∧
      ((iroot 10 2) ^ 2 ≤ 10 ∧ (3 ^ 2 ≤ 10 → 3 ≤ iroot 10 2) ∧
        iroot (27 ^ 5 - 1) 5 = 26 ∧ iroot (27 ^ 5) 5 = 27 ∧ iroot 1 2 = 1) :=
  ⟨by decide, by decide, c8_iroot_correct 10 2 3 (by decide) (by decide)⟩

/-- The exponential search preserves its bracketing invariant and exits with
`n ≤ b_high`. -/
lemma ilogExpAux_spec {n b : Nat} (_hn : 1 ≤ n) (hb : 2 ≤ b) :
    ∀ fuel low blow high bhigh,
      blow = b ^ low → bhigh = b ^ high → low < high → blow ≤ n →
      n ≤ bhigh + fuel →
      (ilogExpAux n fuel (low, blow, high, bhigh)).2.1 =
          b ^ (ilogExpAux n fuel (low, blow, high, bhigh)).1 ∧
        (ilogExpAux n fuel (low, blow, high, bhigh)).2.2.2 =
          b ^ (ilogExpAux n fuel (low, blow, high, bhigh)).2.2.1 ∧
        (ilogExpAux n fuel (low, blow, high, bhigh)).1 <
          (ilogExpAux n fuel (low, blow, high, bhigh)).2.2.1 ∧
        (ilogExpAux n fuel (low, blow, high, bhigh)).2.1 ≤ n ∧
        n ≤ (ilogExpAux n fuel (low, blow, high, bhigh)).2.2.2 := by
  intro fuel
  induction fuel with
  | zero =>
    intro low blow high bhigh h1 h2 h3 h4 h5
    dsimp only [ilogExpAux]
    exact ⟨h1, h2, h3, h4, by omega⟩
  | succ fuel ih =>
    intro low blow high bhigh h1 h2 h3 h4 h5
    rw [ilogExpAux]
    by_cases hlt : bhigh < n
    · rw [if_pos hlt]
      have hb1 : 1 ≤ high := by omega
      have hbh : b ≤ bhigh := by
        rw [h2]
        calc b = b ^ 1 := (pow_one b).symm
          _ ≤ b ^ high := Nat.pow_le_pow_right (by omega) hb1
      have hsq : bhigh ^ 2 = b ^ (2 * high) := by
        rw [h2, ← pow_mul, Nat.mul_comm]
      have hsq2 : 2 * bhigh ≤ bhigh ^ 2 := by
        have : bhigh ^ 2 = bhigh * bhigh := sq bhigh
        have h2b : 2 ≤ bhigh := by omega
        calc 2 * bhigh ≤ bhigh * bhigh := Nat.mul_le_mul_right bhigh h2b
          _ = bhigh ^ 2 := (sq bhigh).symm
      exact ih high bhigh (2 * high) (bhigh ^ 2) h2 hsq (by omega)
        (by omega) (by omega)
    · rw [if_neg hlt]
      dsimp only
      exact ⟨h1, h2, h3, h4, by omega⟩

/-- The binary search returns the floor logarithm given a valid bracket. -/
lemma ilogBinAux_spec {n b : Nat} (hn : 1 ≤ n) (hb : 2 ≤ b) :
    ∀ fuel low blow high bhigh,
      blow = b ^ low → bhigh = b ^ high → low < high →
      b ^ low ≤ n → n ≤ b ^ high → high - low ≤ fuel →
      b ^ (ilogBinAux n b fuel low blow high bhigh) ≤ n ∧
        n < b ^ (ilogBinAux n b fuel low blow high bhigh + 1) := by
  intro fuel
  induction fuel with
  | zero =>
    intro low blow high bhigh h1 h2 h3 h4 h5 h6
    exact absurd h3 (by omega)
  | succ fuel ih =>
    intro low blow high bhigh h1 h2 h3 h4 h5 h6
    rw [ilogBinAux]
    by_cases hgap : high - low > 1
    · rw [if_pos hgap]
      have hmidl : low < (low + high) / 2 := by omega
      have hmidh : (low + high) / 2 < high := by omega
      have hbmid : blow * b ^ ((low + high) / 2 - low) =
          b ^ ((low + high) / 2) := by
        rw [h1, ← pow_add]
        congr 1
        omega
      by_cases hc1 : n < blow * b ^ ((low + high) / 2 - low)
      · rw [if_pos hc1]
        rw [hbmid] at hc1
        exact ih low blow ((low + high) / 2) (blow * b ^ ((low + high) / 2 - low))
          h1 hbmid hmidl h4 (le_of_lt hc1) (by omega)
      · rw [if_neg hc1]
        by_cases hc2 : blow * b ^ ((low + high) / 2 - low) < n
        · rw [if_pos hc2]
          rw [hbmid] at hc2
          exact ih ((low + high) / 2) (blow * b ^ ((low + high) / 2 - low))
            high bhigh hbmid h2 hmidh (le_of_lt hc2) h5 (by omega)
        · rw [if_neg hc2]
          rw [hbmid] at hc1 hc2
          have heq : b ^ ((low + high) / 2) = n := by omega
          constructor
          · omega
          · rw [pow_succ, heq]
            nlinarith
    · rw [if_neg hgap]
      have hhl : high = low + 1 := by omega
      by_cases hc : bhigh = n
      · rw [if_pos hc]
        constructor
        · omega
        · rw [pow_succ]
          have hbn : b ^ high = n := by rw [← h2, hc]
          rw [hbn]
          nlinarith
      · rw [if_neg hc]
        constructor
        · exact h4
        · rw [← hhl]
          have : n ≠ b ^ high := by rw [← h2]; omega
          omega

/-- Function `ilog` returns the floor logarithm. -/
lemma ilog_spec {n b : Nat} (hn : 1 ≤ n) (hb : 2 ≤ b) :
    b ^ (ilog n b) ≤ n ∧ n < b ^ (ilog n b + 1) := by
  rw [ilog]
  have hexp := ilogExpAux_spec hn hb n 0 1 1 b (by simp) (by simp) (by omega)
    (by omega) (by omega)
  obtain ⟨h1, h2, h3, h4, h5⟩ := hexp
  refine ilogBinAux_spec hn hb _ _ _ _ _ h1 h2 h3 ?_ ?_ (by omega)
  · rw [← h1]; exact h4
  · rw [← h2]; exact h5


/-- C9: for `n ≥ 1` and `b ≥ 2`, `ilog` (exponential search, then binary
search maintaining the running power) returns the largest `k` with
`b^k ≤ n`; in particular `ilog 1 b = 0` for every valid `b`,
`ilog (27^5) 27 = 5`, `ilog (27^5 − 1) 27 = 4`, and
`ilog (27^5 + 1) 27 = 5`. -/
theorem c9_ilog_correct (n b j : Nat) (hn : 1 ≤ n) (hb : 2 ≤ b) :
    b ^ (ilog n b) ≤ n ∧ (b ^ j ≤ n → j ≤ ilog n b) ∧ ilog 1 b = 0 ∧
      ilog (27 ^ 5) 27 = 5 ∧ ilog (27 ^ 5 - 1) 27 = 4 ∧
      ilog (27 ^ 5 + 1) 27 = 5 := by
  obtain ⟨hle, hlt⟩ := ilog_spec hn hb
  have hmax : ∀ i, b ^ i ≤ n → i ≤ ilog n b := by
    intro i hi
    by_contra hcon
    push_neg at hcon
    have hstep : b ^ (ilog n b + 1) ≤ b ^ i :=
      Nat.pow_le_pow_right (by omega) (by omega)
    omega
  have h1 : ilog 1 b = 0 := by
    obtain ⟨hle1, _⟩ := ilog_spec (n := 1) (by omega) hb
    by_contra hcon
    have hb1 : b ^ 1 ≤ b ^ (ilog 1 b) :=
      Nat.pow_le_pow_right (by omega) (by omega)
    have hbb : b ^ 1 = b := pow_one b
    omega
  exact ⟨hle, hmax j, h1, by decide, by decide, by decide⟩

/-- C9 witness at `n = 100`, `b = 3`, `j = 4`. -/
theorem c9_ilog_correct_witness :
    1 ≤ 100 ∧ 2 ≤ 3 ∧
      (3 ^ (ilog 100 3) ≤ 100 ∧ (3 ^ 4 ≤ 100 → 4 ≤ ilog 100 3) ∧
        ilog 1 3 = 0 ∧ ilog (27 ^ 5) 27 = 5 ∧ ilog (27 ^ 5 - 1) 27 = 4 ∧
        ilog (27 ^ 5 + 1) 27 = 5) :=
  ⟨by decide, by decide, c9_ilog_correct 100 3 4 (by decide) (by decide)⟩
